import Mathlib

/-!
Verification of the Merkle commitment subsystem of AdStack
(`ml-service/utils/merkle.py`): SHA-256 based Merkle trees over leaf
strings, inclusion proofs, and the fraud-proof helper layer.

The Python code hashes with `hashlib.sha256(data.encode()).hexdigest()`,
so we first give an executable SHA-256 over UTF-8 byte lists, producing
lowercase hex digests, exactly as `hashlib` does.
-/

namespace AdStack

/-- Reduce a natural number modulo 2^32, the word size of SHA-256. -/
def w32 (n : Nat) : Nat := n % 4294967296

/-- Right rotation of a 32-bit word by `n` bits. -/
def rotr32 (n x : Nat) : Nat := w32 ((x >>> n) ||| (x <<< (32 - n)))

/-- SHA-256 big sigma 0. -/
def bsig0 (x : Nat) : Nat := (rotr32 2 x) ^^^ (rotr32 13 x) ^^^ (rotr32 22 x)

/-- SHA-256 big sigma 1. -/
def bsig1 (x : Nat) : Nat := (rotr32 6 x) ^^^ (rotr32 11 x) ^^^ (rotr32 25 x)

/-- SHA-256 small sigma 0. -/
def ssig0 (x : Nat) : Nat := (rotr32 7 x) ^^^ (rotr32 18 x) ^^^ (x >>> 3)

/-- SHA-256 small sigma 1. -/
def ssig1 (x : Nat) : Nat := (rotr32 17 x) ^^^ (rotr32 19 x) ^^^ (x >>> 10)

/-- SHA-256 choice function; negation is xor with the 32-bit mask. -/
def ch32 (x y z : Nat) : Nat := (x &&& y) ^^^ ((x ^^^ 4294967295) &&& z)

/-- SHA-256 majority function. -/
def maj32 (x y z : Nat) : Nat := (x &&& y) ^^^ (x &&& z) ^^^ (y &&& z)

/-- The 64 SHA-256 round constants (FIPS 180-4), written in decimal. -/
def sha256K : List Nat :=
  [1116352408, 1899447441, 3049323471, 3921009573, 961987163,
   1508970993, 2453635748, 2870763221, 3624381080, 310598401,
   607225278, 1426881987, 1925078388, 2162078206, 2614888103,
   3248222580, 3835390401, 4022224774, 264347078, 604807628,
   770255983, 1249150122, 1555081692, 1996064986, 2554220882,
   2821834349, 2952996808, 3210313671, 3336571891, 3584528711,
   113926993, 338241895, 666307205, 773529912, 1294757372,
   1396182291, 1695183700, 1986661051, 2177026350, 2456956037,
   2730485921, 2820302411, 3259730800, 3345764771, 3516065817,
   3600352804, 4094571909, 275423344, 430227734, 506948616,
   659060556, 883997877, 958139571, 1322822218, 1537002063,
   1747873779, 1955562222, 2024104815, 2227730452, 2361852424,
   2428436474, 2756734187, 3204031479, 3329325298]

/-- The eight-word SHA-256 working state. -/
structure Sha256State where
  a : Nat
  b : Nat
  c : Nat
  d : Nat
  e : Nat
  f : Nat
  g : Nat
  h : Nat

/-- The SHA-256 initial hash value (FIPS 180-4), written in decimal. -/
def sha256Init : Sha256State :=
  ⟨1779033703, 3144134277, 1013904242, 2773480762,
   1359893119, 2600822924, 528734635, 1541459225⟩

/-- One SHA-256 round, consuming a round constant paired with a schedule word. -/
def sha256Round (s : Sha256State) (kw : Nat × Nat) : Sha256State :=
  let t1 := w32 (s.h + bsig1 s.e + ch32 s.e s.f s.g + kw.1 + kw.2)
  let t2 := w32 (bsig0 s.a + maj32 s.a s.b s.c)
  ⟨w32 (t1 + t2), s.a, s.b, s.c, w32 (s.d + t1), s.e, s.f, s.g⟩

/-- Extend the message schedule: the accumulator holds the schedule in reverse
order (most recent word first); runs the given number of extension steps. -/
def scheduleRev : Nat → List Nat → List Nat
  | 0, acc => acc
  | k+1, acc =>
      let word := w32 (ssig1 (acc.getD 1 0) + acc.getD 6 0 + ssig0 (acc.getD 14 0) + acc.getD 15 0)
      scheduleRev k (word :: acc)

/-- The full 64-word message schedule from a 16-word block. -/
def sha256Schedule (block : List Nat) : List Nat :=
  (scheduleRev 48 block.reverse).reverse

/-- Compress one 16-word block into the state. -/
def sha256Compress (s : Sha256State) (block : List Nat) : Sha256State :=
  let t := (List.zip sha256K (sha256Schedule block)).foldl sha256Round s
  ⟨w32 (s.a + t.a), w32 (s.b + t.b), w32 (s.c + t.c), w32 (s.d + t.d),
   w32 (s.e + t.e), w32 (s.f + t.f), w32 (s.g + t.g), w32 (s.h + t.h)⟩

/-- Big-endian byte rendering of a number into the given number of bytes. -/
def natToBytesBE : Nat → Nat → List Nat
  | 0, _ => []
  | k+1, n => natToBytesBE k (n >>> 8) ++ [n % 256]

/-- SHA-256 padding: append 0x80, zero bytes to 56 mod 64, then the 8-byte
big-endian bit length. -/
def padMessage (msg : List Nat) : List Nat :=
  let zeros := (119 - (msg.length % 64)) % 64
  msg ++ 128 :: List.replicate zeros 0 ++ natToBytesBE 8 (8 * msg.length)

/-- Group bytes into big-endian 32-bit words. -/
def bytesToWords : List Nat → List Nat
  | b0 :: b1 :: b2 :: b3 :: rest =>
      (b3 ||| (b2 <<< 8) ||| (b1 <<< 16) ||| (b0 <<< 24)) :: bytesToWords rest
  | _ => []

/-- Split a word list into 16-word blocks (the input length is always a
multiple of 16 after padding). -/
def toBlocks : List Nat → List (List Nat)
  | w0 :: w1 :: w2 :: w3 :: w4 :: w5 :: w6 :: w7 ::
    w8 :: w9 :: w10 :: w11 :: w12 :: w13 :: w14 :: w15 :: rest =>
      [w0, w1, w2, w3, w4, w5, w6, w7, w8, w9, w10, w11, w12, w13, w14, w15] :: toBlocks rest
  | _ => []

/-- SHA-256 over a byte list, as the final eight-word state. -/
def sha256Words (msg : List Nat) : Sha256State :=
  (toBlocks (bytesToWords (padMessage msg))).foldl sha256Compress sha256Init

/-- Big-endian bytes of one 32-bit word. -/
def wordToBytes (w : Nat) : List Nat :=
  [(w >>> 24) &&& 255, (w >>> 16) &&& 255, (w >>> 8) &&& 255, w &&& 255]

/-- The 32 digest bytes of a final state. -/
def stateBytes (s : Sha256State) : List Nat :=
  wordToBytes s.a ++ wordToBytes s.b ++ wordToBytes s.c ++ wordToBytes s.d ++
  wordToBytes s.e ++ wordToBytes s.f ++ wordToBytes s.g ++ wordToBytes s.h

/-- The sixteen lowercase hexadecimal digit characters. -/
def hexDigitChars : List Char := "0123456789abcdef".data

/-- Hexadecimal digit character for a value below 16. -/
def hexDigit (n : Nat) : Char := hexDigitChars.getD n '0'

/-- Two lowercase hex characters for one byte. -/
def byteToHex (b : Nat) : List Char := [hexDigit (b / 16), hexDigit (b % 16)]

/-- Lowercase hex string for a byte list. -/
def bytesToHexStr (bs : List Nat) : String :=
  String.mk (bs.foldr (fun b acc => byteToHex b ++ acc) [])

/-- UTF-8 encoding of one Unicode code point. -/
def utf8EncodeChar (n : Nat) : List Nat :=
  if n < 128 then [n]
  else if n < 2048 then [192 ||| (n >>> 6), 128 ||| (n &&& 63)]
  else if n < 65536 then
    [224 ||| (n >>> 12), 128 ||| ((n >>> 6) &&& 63), 128 ||| (n &&& 63)]
  else
    [240 ||| (n >>> 18), 128 ||| ((n >>> 12) &&& 63), 128 ||| ((n >>> 6) &&& 63), 128 ||| (n &&& 63)]

/-- UTF-8 bytes of a string, as `str.encode()` produces in the source. -/
def strToBytes (s : String) : List Nat :=
  s.data.foldr (fun c acc => utf8EncodeChar c.toNat ++ acc) []

/-- SHA-256 lowercase hex digest of a byte list. -/
def sha256BytesHex (msg : List Nat) : String :=
  bytesToHexStr (stateBytes (sha256Words msg))

/-- SHA-256 lowercase hex digest of a string, i.e.
`hashlib.sha256(data.encode()).hexdigest()`: the `MerkleTree._hash` primitive. -/
def sha256hex (s : String) : String :=
  sha256BytesHex (strToBytes s)

/-- `MerkleTree._hash_pair`: concatenate the two hex digest strings and hash
the concatenation with `_hash`. -/
def hashPair (left right : String) : String :=
  sha256hex (left ++ right)

/-- One pairing pass of `MerkleTree._build_tree`: the `for i in range(0, len, 2)`
loop that hashes adjacent pairs, duplicating a lone last node. -/
def nextLevel : List String → List String
  | [] => []
  | [x] => [hashPair x x]
  | x :: y :: rest => hashPair x y :: nextLevel rest

/-- The `while len(current_level) > 1` loop of `_build_tree`, accumulating the
levels from the given one upward.  The loop runs at most `length` times, so we
carry that bound as structural fuel; `buildTree` supplies sufficient fuel. -/
def buildLoop : Nat → List String → List (List String)
  | 0, cur => [cur]
  | fuel+1, cur => if cur.length ≤ 1 then [cur] else cur :: buildLoop fuel (nextLevel cur)

/-- `MerkleTree._build_tree`: empty input gives no levels, otherwise the levels
from the leaf hashes up to the singleton root level. -/
def buildTree (hashes : List String) : List (List String) :=
  if hashes.isEmpty then [] else buildLoop hashes.length hashes

/-- The root as read off the level list: `tree[-1][0]`. -/
def rootOfLevels (levels : List (List String)) : String :=
  (levels.getLastD []).getD 0 ""

/-- The state a `MerkleTree` instance holds after `__init__`. -/
structure MerkleTree where
  leaves : List String
  leafHashes : List String
  tree : List (List String)
  root : String

/-- `MerkleTree.__init__`: rejects an empty leaf list, hashes every leaf,
builds the level list and reads the root off it. -/
def mkMerkleTree (leaves : List String) : Except String MerkleTree :=
  if leaves.isEmpty then .error "Cannot create Merkle tree with empty leaves"
  else
    let leafHashes := leaves.map sha256hex
    let tree := buildTree leafHashes
    .ok ⟨leaves, leafHashes, tree, rootOfLevels tree⟩

/-- The body of the `for level in range(len(self.tree) - 1)` loop of
`MerkleTree.get_proof`: one `(sibling, position)` entry per level below the
root, descending the level list while halving the index. -/
def proofAux : List (List String) → Nat → List (String × String)
  | [], _ => []
  | [_], _ => []
  | level :: next :: rest, i =>
      let entry :=
        if i % 2 == 1 then (level.getD (i - 1) "", "left")
        else if i + 1 < level.length then (level.getD (i + 1) "", "right")
        else (level.getD i "", "right")
      entry :: proofAux (next :: rest) (i / 2)

/-- `MerkleTree.get_proof`: rejects an out-of-range index, otherwise collects
the sibling path.  The index is an integer, as in the source, so that the
negative-index check is faithful. -/
def getProof (t : MerkleTree) (leafIndex : Int) : Except String (List (String × String)) :=
  if leafIndex < 0 ∨ (t.leafHashes.length : Int) ≤ leafIndex then
    .error "Invalid leaf index"
  else
    .ok (proofAux t.tree leafIndex.toNat)

/-- One step of the proof-application loop in `MerkleTree.verify_proof`. -/
def stepHash (cur : String) (p : String × String) : String :=
  if p.2 == "left" then hashPair p.1 cur else hashPair cur p.1

/-- `MerkleTree.verify_proof`: fold the proof over the leaf hash and compare
with the root (the tree's own root when none is supplied). -/
def verifyProof (t : MerkleTree) (leafData : String) (proof : List (String × String))
    (root : Option String) : Bool :=
  let r := match root with | none => t.root | some x => x
  (proof.foldl stepHash (sha256hex leafData)) == r

/-- `MerkleTree.get_proof_hex`: the proof with the position tags dropped. -/
def getProofHex (t : MerkleTree) (leafIndex : Int) : Except String (List String) :=
  (getProof t leafIndex).map (·.map Prod.fst)

/-- Rendering of `f"{fraud_score:.4f}"`.  The score is modelled as an exact
number of ten-thousandths (the Python source formats a float to four decimal
places; four-decimal values round-trip exactly through this formatting). -/
def formatScore4 (n : Nat) : String :=
  let frac := n % 10000
  let digits := toString (10000 + frac)
  toString (n / 10000) ++ "." ++ (digits.drop 1)

/-- `create_fraud_proof`: lay out the six leaves, build the tree, and return
the root with the hex proof for leaf index 4 (the fraud score). -/
def createFraudProof (campaignId : Nat) (publisherId : String) (impressions : Nat)
    (clicks : Nat) (fraudScore4 : Nat) (timestamp : Nat) :
    Except String (String × List String) := do
  let leaves := ["campaign:" ++ toString campaignId,
                 "publisher:" ++ publisherId,
                 "impressions:" ++ toString impressions,
                 "clicks:" ++ toString clicks,
                 "fraud_score:" ++ formatScore4 fraudScore4,
                 "timestamp:" ++ toString timestamp]
  let tree ← mkMerkleTree leaves
  let proof ← getProofHex tree 4
  return (tree.root, proof)

/-- The position tags `verify_fraud_proof` reconstructs: alternating
`left, right, left, ...` by element index. -/
def reconstructTuples (proof : List String) : List (String × String) :=
  proof.enum.map (fun p => (p.2, if p.1 % 2 == 0 then "left" else "right"))

/-- `verify_fraud_proof`: build a scratch tree of `len(proof) + 1` empty
leaves, reconstruct alternating position tags, and delegate to
`verify_proof` with the expected root. -/
def verifyFraudProof (fraudScoreLeaf : String) (proof : List String)
    (expectedRoot : String) : Except String Bool := do
  let tree ← mkMerkleTree (List.replicate (proof.length + 1) "")
  return verifyProof tree fraudScoreLeaf (reconstructTuples proof) (some expectedRoot)

/-- Variant of `verify_fraud_proof` whose scratch-tree leaves are a parameter
instead of the fixed empty strings; used to state that the scratch tree's
content is irrelevant to the result. -/
def verifyFraudProofScratch (scratch : List String) (fraudScoreLeaf : String)
    (proof : List String) (expectedRoot : String) : Except String Bool := do
  let tree ← mkMerkleTree scratch
  return verifyProof tree fraudScoreLeaf (reconstructTuples proof) (some expectedRoot)

/-- Success tag of an `Except` result. -/
def exceptIsOk : Except ε α → Bool
  | .ok _ => true
  | .error _ => false

/-! ## Structural lemmas about tree construction -/

theorem stepHash_left (cur s : String) : stepHash cur (s, "left") = hashPair s cur := rfl

theorem stepHash_right (cur s : String) : stepHash cur (s, "right") = hashPair cur s := rfl

theorem nextLevel_length : ∀ l : List String, (nextLevel l).length = (l.length + 1) / 2
  | [] => rfl
  | [x] => by simp [nextLevel]
  | _ :: _ :: rest => by
      have ih := nextLevel_length rest
      simp only [nextLevel, List.length_cons, ih]
      omega

theorem nextLevel_getD_pair : ∀ (l : List String) (j : Nat), 2 * j + 1 < l.length →
    (nextLevel l).getD j "" = hashPair (l.getD (2 * j) "") (l.getD (2 * j + 1) "")
  | [], j, h => by simp at h
  | [_], j, h => by simp only [List.length_singleton] at h; omega
  | _ :: _ :: _, 0, _ => by simp [nextLevel]
  | x :: y :: rest, j + 1, h => by
      have hh : 2 * j + 1 < rest.length := by
        simp only [List.length_cons] at h; omega
      have ih := nextLevel_getD_pair rest j hh
      have e1 : 2 * (j + 1) = 2 * j + 1 + 1 := by omega
      have e2 : 2 * (j + 1) + 1 = 2 * j + 1 + 1 + 1 := by omega
      simp only [nextLevel, e1, e2, List.getD_cons_succ, ih]

theorem nextLevel_getD_dup : ∀ (l : List String) (j : Nat), 2 * j + 1 = l.length →
    (nextLevel l).getD j "" = hashPair (l.getD (2 * j) "") (l.getD (2 * j) "")
  | [], j, h => by simp only [List.length_nil] at h; omega
  | [x], 0, _ => by simp [nextLevel]
  | [_], j + 1, h => by simp only [List.length_singleton] at h; omega
  | _ :: _ :: rest, 0, h => by simp only [List.length_cons] at h; omega
  | x :: y :: rest, j + 1, h => by
      have hh : 2 * j + 1 = rest.length := by
        simp only [List.length_cons] at h; omega
      have ih := nextLevel_getD_dup rest j hh
      have e1 : 2 * (j + 1) = 2 * j + 1 + 1 := by omega
      simp only [nextLevel, e1, List.getD_cons_succ, ih]

theorem buildLoop_ne_nil : ∀ (fuel : Nat) (cur : List String), buildLoop fuel cur ≠ []
  | 0, cur => by simp [buildLoop]
  | fuel + 1, cur => by
      simp only [buildLoop]
      split <;> simp

theorem rootOfLevels_cons (l0 : List String) (L : List (List String)) (h : L ≠ []) :
    rootOfLevels (l0 :: L) = rootOfLevels L := by
  cases L with
  | nil => exact absurd rfl h
  | cons b t => simp [rootOfLevels, List.getLastD_cons]

/-- The heart of proof correctness: starting from the node at index `i` of a
level, folding the sibling path produced by `proofAux` over the levels built
by `buildLoop` reaches the root of those levels. -/
theorem chain_correct : ∀ (fuel : Nat) (cur : List String) (i : Nat),
    cur.length ≤ fuel → i < cur.length →
    (proofAux (buildLoop fuel cur) i).foldl stepHash (cur.getD i "")
      = rootOfLevels (buildLoop fuel cur)
  | 0, cur, i, hf, hi => by omega
  | fuel + 1, cur, i, hf, hi => by
      by_cases hlen : cur.length ≤ 1
      · have hi0 : i = 0 := by omega
        subst hi0
        simp [buildLoop, hlen, proofAux, rootOfLevels]
      · have h2 : 2 ≤ cur.length := by omega
        have hnl := nextLevel_length cur
        have hfl : (nextLevel cur).length ≤ fuel := by omega
        have hil : i / 2 < (nextLevel cur).length := by omega
        have ih := chain_correct fuel (nextLevel cur) (i / 2) hfl hil
        have hbl : buildLoop (fuel + 1) cur = cur :: buildLoop fuel (nextLevel cur) := by
          simp [buildLoop, hlen]
        obtain ⟨L0, Lrest, hL⟩ : ∃ L0 Lrest, buildLoop fuel (nextLevel cur) = L0 :: Lrest := by
          cases hc : buildLoop fuel (nextLevel cur) with
          | nil => exact absurd hc (buildLoop_ne_nil fuel (nextLevel cur))
          | cons a t => exact ⟨a, t, rfl⟩
        rw [hL] at ih
        rw [hbl, hL]
        have hroot : rootOfLevels (cur :: L0 :: Lrest) = rootOfLevels (L0 :: Lrest) :=
          rootOfLevels_cons cur (L0 :: Lrest) (by simp)
        have hstep : stepHash (cur.getD i "")
            (if i % 2 == 1 then (cur.getD (i - 1) "", "left")
             else if i + 1 < cur.length then (cur.getD (i + 1) "", "right")
             else (cur.getD i "", "right"))
            = (nextLevel cur).getD (i / 2) "" := by
          by_cases hpar : i % 2 = 1
          · obtain ⟨j, hj⟩ : ∃ j, i = 2 * j + 1 := ⟨i / 2, by omega⟩
            subst hj
            have hm : (2 * j + 1) % 2 = 1 := by omega
            have hd : (2 * j + 1) / 2 = j := by omega
            have hs : 2 * j + 1 - 1 = 2 * j := by omega
            simp only [hm, hd, hs, beq_self_eq_true, if_pos]
            rw [stepHash_left]
            exact (nextLevel_getD_pair cur j (by omega)).symm
          · obtain ⟨j, hj⟩ : ∃ j, i = 2 * j := ⟨i / 2, by omega⟩
            subst hj
            have hm : (2 * j) % 2 = 0 := by omega
            have hd : (2 * j) / 2 = j := by omega
            simp only [hm, hd]
            by_cases hlast : 2 * j + 1 < cur.length
            · simp only [if_pos hlast, if_neg (by decide : ¬((0 : Nat) == 1) = true)]
              rw [stepHash_right]
              exact (nextLevel_getD_pair cur j hlast).symm
            · have heq : 2 * j + 1 = cur.length := by omega
              simp only [if_neg hlast, if_neg (by decide : ¬((0 : Nat) == 1) = true)]
              rw [stepHash_right]
              exact (nextLevel_getD_dup cur j heq).symm
        calc (proofAux (cur :: L0 :: Lrest) i).foldl stepHash (cur.getD i "")
            = (proofAux (L0 :: Lrest) (i / 2)).foldl stepHash
                ((nextLevel cur).getD (i / 2) "") := by
              simp only [proofAux, List.foldl_cons, hstep]
          _ = rootOfLevels (L0 :: Lrest) := ih
          _ = rootOfLevels (cur :: L0 :: Lrest) := hroot.symm

theorem getD_map_sha (leaves : List String) (i : Nat) (hi : i < leaves.length) :
    (leaves.map sha256hex).getD i "" = sha256hex (leaves.getD i "") := by
  simp [List.getD_eq_getElem?_getD, List.getElem?_eq_getElem hi,
        List.getElem?_map]

theorem isEmpty_false_of_lt {α : Type} (l : List α) (i : Nat) (hi : i < l.length) :
    l.isEmpty = false := by
  cases l with
  | nil => simp at hi
  | cons a t => rfl

/-- The record `MerkleTree.__init__` produces for the leaves `["a","b","c"]`. -/
def threeLeafTree : MerkleTree :=
  ⟨["a", "b", "c"], ["a", "b", "c"].map sha256hex,
   buildTree (["a", "b", "c"].map sha256hex),
   rootOfLevels (buildTree (["a", "b", "c"].map sha256hex))⟩

/-- C1: for every non-empty list of leaf strings and every index `i` with
`0 ≤ i <` number of leaves, verifying the proof generated for leaf `i`
against the tree's own root succeeds:
`verify_proof(leaves[i], get_proof(i), get_root())` returns true. -/
theorem merkle_proof_roundtrip (leaves : List String) (t : MerkleTree) (i : Nat)
    (hmk : mkMerkleTree leaves = .ok t) (hi : i < leaves.length) :
    ∃ prf, getProof t ((i : Nat) : Int) = .ok prf ∧
      verifyProof t (leaves.getD i "") prf (some t.root) = true := by
  have hne : leaves.isEmpty = false := isEmpty_false_of_lt leaves i hi
  simp only [mkMerkleTree, hne, Bool.false_eq_true, if_false, Except.ok.injEq] at hmk
  subst hmk
  have hlen : (leaves.map sha256hex).length = leaves.length := by simp
  have hmne : (leaves.map sha256hex).isEmpty = false :=
    isEmpty_false_of_lt _ i (by omega)
  have hbt : buildTree (leaves.map sha256hex)
      = buildLoop (leaves.map sha256hex).length (leaves.map sha256hex) := by
    simp only [buildTree, hmne, Bool.false_eq_true, if_false]
  refine ⟨proofAux (buildTree (leaves.map sha256hex)) i, ?_, ?_⟩
  · simp only [getProof]
    rw [if_neg]
    · simp
    · simp only [List.length_map]
      omega
  · simp only [verifyProof]
    rw [getD_map_sha leaves i hi |>.symm]
    have hch := chain_correct (leaves.map sha256hex).length (leaves.map sha256hex) i
      (Nat.le_refl _) (by omega)
    rw [← hbt] at hch
    rw [hch, hbt]
    simp

/-- Witness for C1 at leaves `["a","b","c"]` and index 1. -/
theorem merkle_proof_roundtrip_witness :
    mkMerkleTree ["a", "b", "c"] = .ok threeLeafTree ∧
    1 < (["a", "b", "c"] : List String).length ∧
    (∃ prf, getProof threeLeafTree ((1 : Nat) : Int) = .ok prf ∧
      verifyProof threeLeafTree ((["a", "b", "c"] : List String).getD 1 "") prf
        (some threeLeafTree.root) = true) :=
  ⟨rfl, by decide, merkle_proof_roundtrip ["a", "b", "c"] threeLeafTree 1 rfl (by decide)⟩

theorem getLastD_eq_getD_length_sub_one {α : Type} (l : List α) (d : α) :
    l.getLastD d = l.getD (l.length - 1) d := by
  rw [List.getLastD_eq_getLast?, List.getLast?_eq_getElem?, List.getD_eq_getElem?_getD]

/-- When a level has odd length, its lone last node pairs with itself: the
last node of the next level is the pair hash of the last node with itself. -/
theorem nextLevel_last_dup (l : List String) (hodd : l.length % 2 = 1) :
    (nextLevel l).getLastD "" = hashPair (l.getLastD "") (l.getLastD "") := by
  obtain ⟨j, hj⟩ : ∃ j, l.length = 2 * j + 1 := ⟨l.length / 2, by omega⟩
  have hnl := nextLevel_length l
  rw [getLastD_eq_getD_length_sub_one, getLastD_eq_getD_length_sub_one]
  have h1 : (nextLevel l).length - 1 = j := by omega
  have h2 : l.length - 1 = 2 * j := by omega
  rw [h1, h2]
  exact nextLevel_getD_dup l j (by omega)

/-- Level invariants of the construction loop, given enough fuel: the bottom
level is the input; each level above has ceiling-half the length of the one
below it; every level except the top has more than one node; whenever a level
has odd length, the last node of the level above it is the pair hash of that
level's lone last node with itself; and the top level is a singleton. -/
theorem buildLoop_invariants : ∀ (fuel : Nat) (cur : List String),
    cur ≠ [] → cur.length ≤ fuel →
    (buildLoop fuel cur).getD 0 [] = cur ∧
    (∀ i, i + 1 < (buildLoop fuel cur).length →
       ((buildLoop fuel cur).getD (i + 1) []).length
         = (((buildLoop fuel cur).getD i []).length + 1) / 2 ∧
       1 < ((buildLoop fuel cur).getD i []).length ∧
       (((buildLoop fuel cur).getD i []).length % 2 = 1 →
         ((buildLoop fuel cur).getD (i + 1) []).getLastD ""
           = hashPair (((buildLoop fuel cur).getD i []).getLastD "")
               (((buildLoop fuel cur).getD i []).getLastD ""))) ∧
    ((buildLoop fuel cur).getLastD []).length = 1
  | 0, cur, hne, hf => by
      have : 0 < cur.length := List.length_pos.mpr hne
      omega
  | fuel + 1, cur, hne, hf => by
      have hpos : 0 < cur.length := List.length_pos.mpr hne
      by_cases hlen : cur.length ≤ 1
      · have h1 : cur.length = 1 := by omega
        simp [buildLoop, hlen, List.getLastD_cons, h1]
      · have h2 : 2 ≤ cur.length := by omega
        have hnl := nextLevel_length cur
        have hnne : nextLevel cur ≠ [] := by
          apply List.ne_nil_of_length_pos
          omega
        have hnf : (nextLevel cur).length ≤ fuel := by omega
        obtain ⟨ih0, ih1, ih2⟩ := buildLoop_invariants fuel (nextLevel cur) hnne hnf
        have hbl : buildLoop (fuel + 1) cur = cur :: buildLoop fuel (nextLevel cur) := by
          simp [buildLoop, hlen]
        obtain ⟨L0, Lrest, hL⟩ : ∃ L0 Lrest, buildLoop fuel (nextLevel cur) = L0 :: Lrest := by
          cases hc : buildLoop fuel (nextLevel cur) with
          | nil => exact absurd hc (buildLoop_ne_nil fuel (nextLevel cur))
          | cons a t => exact ⟨a, t, rfl⟩
        rw [hL] at ih0 ih1 ih2
        rw [hbl, hL]
        refine ⟨by simp, ?_, ?_⟩
        · intro i hi
          cases i with
          | zero =>
              have hL0 : L0 = nextLevel cur := ih0
              simp only [List.getD_cons_zero, List.getD_cons_succ, hL0]
              refine ⟨hnl, h2, ?_⟩
              intro hodd
              exact nextLevel_last_dup cur hodd
          | succ k =>
              simp only [List.length_cons] at hi
              have := ih1 k (by simpa using hi)
              simpa using this
        · rw [List.getLastD_cons]
          have : (L0 :: Lrest).getLastD cur = (L0 :: Lrest).getLastD [] := by
            rw [List.getLastD_cons, List.getLastD_cons]
          rw [this]
          exact ih2

/-- C6: for every non-empty leaf-hash list, construction produces a sequence
of levels whose bottom level is the input, in which every level above
satisfies `len(level[i+1]) = ceil(len(level[i]) / 2)`, every level below the
top has more than one node (so construction terminates exactly when a level
of length 1 is produced), an odd-length level pairs its lone last node with
itself (the last node of the level above is the pair hash of that node with
itself, not any padding value), and the top level is the singleton root
level. -/
theorem buildTree_level_invariants (hashes : List String) (hne : hashes ≠ []) :
    buildTree hashes ≠ [] ∧
    (buildTree hashes).getD 0 [] = hashes ∧
    (∀ i, i + 1 < (buildTree hashes).length →
       ((buildTree hashes).getD (i + 1) []).length
         = (((buildTree hashes).getD i []).length + 1) / 2 ∧
       1 < ((buildTree hashes).getD i []).length ∧
       (((buildTree hashes).getD i []).length % 2 = 1 →
         ((buildTree hashes).getD (i + 1) []).getLastD ""
           = hashPair (((buildTree hashes).getD i []).getLastD "")
               (((buildTree hashes).getD i []).getLastD ""))) ∧
    ((buildTree hashes).getLastD []).length = 1 := by
  have hie : hashes.isEmpty = false := by
    cases hashes with
    | nil => exact absurd rfl hne
    | cons a t => rfl
  have hbt : buildTree hashes = buildLoop hashes.length hashes := by
    simp only [buildTree, hie, Bool.false_eq_true, if_false]
  obtain ⟨h0, h1, h2⟩ := buildLoop_invariants hashes.length hashes hne (Nat.le_refl _)
  rw [hbt]
  exact ⟨buildLoop_ne_nil _ _, h0, h1, h2⟩

/-- Witness for C6 at the three-element hash list `["a","b","c"]`, whose
bottom level has odd length, exercising the self-duplication conjunct. -/
theorem buildTree_level_invariants_witness :
    (["a", "b", "c"] : List String) ≠ [] ∧
    (buildTree ["a", "b", "c"] ≠ [] ∧
     (buildTree ["a", "b", "c"]).getD 0 [] = ["a", "b", "c"] ∧
     (∀ i, i + 1 < (buildTree ["a", "b", "c"]).length →
        ((buildTree ["a", "b", "c"]).getD (i + 1) []).length
          = (((buildTree ["a", "b", "c"]).getD i []).length + 1) / 2 ∧
        1 < ((buildTree ["a", "b", "c"]).getD i []).length ∧
        (((buildTree ["a", "b", "c"]).getD i []).length % 2 = 1 →
          ((buildTree ["a", "b", "c"]).getD (i + 1) []).getLastD ""
            = hashPair (((buildTree ["a", "b", "c"]).getD i []).getLastD "")
                (((buildTree ["a", "b", "c"]).getD i []).getLastD ""))) ∧
     ((buildTree ["a", "b", "c"]).getLastD []).length = 1) :=
  ⟨by simp, buildTree_level_invariants ["a", "b", "c"] (by simp)⟩

/-- C4: for a 3-leaf tree `[A, B, C]`, level 1 pairs the lone last node with
itself: it equals `[pairHash hA hB, pairHash hC hC]`, the root is the pair
hash of those two, and consequently the tree built from `[a, b, c]` has the
same root as the tree built from `[a, b, c, c]` (in particular for
`["x","y","z"]` versus `["x","y","z","z"]`). -/
theorem three_leaf_structure (a b c : String) :
    (mkMerkleTree [a, b, c]).map (fun t => t.tree.getD 1 [])
      = .ok [hashPair (sha256hex a) (sha256hex b), hashPair (sha256hex c) (sha256hex c)] ∧
    (mkMerkleTree [a, b, c]).map (fun t => t.root)
      = .ok (hashPair (hashPair (sha256hex a) (sha256hex b))
              (hashPair (sha256hex c) (sha256hex c))) ∧
    (mkMerkleTree [a, b, c]).map (fun t => t.root)
      = (mkMerkleTree [a, b, c, c]).map (fun t => t.root) := by
  refine ⟨rfl, rfl, rfl⟩

/-- C9: tree construction fails with the empty-leaves `ValueError` exactly
when the leaf list is empty; on any non-empty list it succeeds. -/
theorem mkMerkleTree_error_iff :
    (∀ leaves : List String, exceptIsOk (mkMerkleTree leaves) = !leaves.isEmpty) ∧
    mkMerkleTree ([] : List String)
      = .error "Cannot create Merkle tree with empty leaves" := by
  constructor
  · intro leaves
    cases leaves with
    | nil => rfl
    | cons a t => rfl
  · rfl

/-- C8: on a tree whose construction succeeded from `leaves`, `get_proof`
fails exactly when the index is negative or at least the number of leaves;
every index in `[0, n)` yields a proof without error. -/
theorem getProof_ok_iff (leaves : List String) (t : MerkleTree) (i : Int)
    (hmk : mkMerkleTree leaves = .ok t) :
    exceptIsOk (getProof t i) = true ↔ 0 ≤ i ∧ i < (leaves.length : Int) := by
  have hne : leaves.isEmpty = false := by
    cases hmk' : mkMerkleTree leaves with
    | error e => rw [hmk'] at hmk; exact absurd hmk (by simp)
    | ok t' =>
        cases leaves with
        | nil => rw [mkMerkleTree] at hmk'; simp at hmk'
        | cons a l => rfl
  simp only [mkMerkleTree, hne, Bool.false_eq_true, if_false, Except.ok.injEq] at hmk
  subst hmk
  simp only [getProof, List.length_map]
  by_cases hc : i < 0 ∨ (leaves.length : Int) ≤ i
  · rw [if_pos hc]
    simp only [exceptIsOk]
    constructor
    · intro h; exact absurd h (by simp)
    · intro h; omega
  · rw [if_neg hc]
    simp only [exceptIsOk]
    constructor
    · intro _; omega
    · intro _; trivial

/-- Witness for C8: a two-leaf tree with the in-range index 1. -/
theorem getProof_ok_iff_witness :
    mkMerkleTree ["a", "b"]
      = .ok ⟨["a", "b"], ["a", "b"].map sha256hex,
             buildTree (["a", "b"].map sha256hex),
             rootOfLevels (buildTree (["a", "b"].map sha256hex))⟩ ∧
    (exceptIsOk (getProof ⟨["a", "b"], ["a", "b"].map sha256hex,
             buildTree (["a", "b"].map sha256hex),
             rootOfLevels (buildTree (["a", "b"].map sha256hex))⟩ 1) = true
      ↔ 0 ≤ (1 : Int) ∧ (1 : Int) < ((["a", "b"] : List String).length : Int)) :=
  ⟨rfl, getProof_ok_iff ["a", "b"] _ 1 rfl⟩

/-- C10: the result of `verify_fraud_proof` does not depend on the contents
of the scratch tree's leaves (only their count), because `verify_proof` with
an explicit root never reads the tree instance. -/
theorem verifyFraudProof_scratch_irrelevant (scratch : List String) (leaf : String)
    (proof : List String) (root : String) (hlen : scratch.length = proof.length + 1) :
    verifyFraudProofScratch scratch leaf proof root = verifyFraudProof leaf proof root := by
  obtain ⟨s0, srest, rfl⟩ : ∃ s0 srest, scratch = s0 :: srest := by
    cases scratch with
    | nil => simp at hlen
    | cons a t => exact ⟨a, t, rfl⟩
  simp only [verifyFraudProofScratch, verifyFraudProof, mkMerkleTree,
    List.replicate_succ, List.isEmpty_cons, Bool.false_eq_true, if_false]
  rfl

/-- Witness for C10: scratch leaves `["hello"]` against the empty proof. -/
theorem verifyFraudProof_scratch_irrelevant_witness :
    (["hello"] : List String).length = ([] : List String).length + 1 ∧
    verifyFraudProofScratch ["hello"] "x" [] "r" = verifyFraudProof "x" [] "r" :=
  ⟨by simp, verifyFraudProof_scratch_irrelevant ["hello"] "x" [] "r" (by simp)⟩

/-- C3 (amended): `verify_fraud_proof` never raises, for mismatched and for
empty proofs alike: the scratch tree always has `len(proof) + 1 ≥ 1` leaves,
so construction succeeds and the result is a boolean; for an empty proof the
result is the comparison of the bare leaf hash with the expected root. -/
theorem verifyFraudProof_never_raises :
    (∀ (leaf : String) (proof : List String) (root : String),
       ∃ b : Bool, verifyFraudProof leaf proof root = .ok b) ∧
    (∀ (leaf root : String),
       verifyFraudProof leaf ([] : List String) root = .ok (sha256hex leaf == root)) := by
  constructor
  · intro leaf proof root
    refine ⟨verifyProof ⟨List.replicate (proof.length + 1) "",
        (List.replicate (proof.length + 1) "").map sha256hex,
        buildTree ((List.replicate (proof.length + 1) "").map sha256hex),
        rootOfLevels (buildTree ((List.replicate (proof.length + 1) "").map sha256hex))⟩
      leaf (reconstructTuples proof) (some root), ?_⟩
    simp only [verifyFraudProof, mkMerkleTree, List.replicate_succ, List.isEmpty_cons,
      Bool.false_eq_true, if_false]
    rfl
  · intro leaf root
    rfl

/-- Counterexample to C3 as stated: on the structurally smallest input, the
empty proof list, `verify_fraud_proof` does not fail with the empty-leaves
`ValueError`; its one-leaf scratch tree builds fine and it returns the
boolean false. -/
theorem verifyFraudProof_empty_proof_ok :
    verifyFraudProof "x" ([] : List String) "" = .ok false := by
  rfl

/-! ## Digest-format lemmas -/

theorem stateBytes_length (st : Sha256State) : (stateBytes st).length = 32 := rfl

theorem length_hexChars_foldr : ∀ bs : List Nat,
    (bs.foldr (fun b acc => byteToHex b ++ acc) []).length = 2 * bs.length
  | [] => rfl
  | b :: rest => by
      have ih := length_hexChars_foldr rest
      have hb : (byteToHex b).length = 2 := rfl
      rw [List.foldr_cons, List.length_append, ih, hb, List.length_cons]
      omega

theorem sha256hex_length (s : String) : (sha256hex s).length = 64 := by
  show (String.mk ((stateBytes (sha256Words (strToBytes s))).foldr
      (fun b acc => byteToHex b ++ acc) [])).length = 64
  show ((stateBytes (sha256Words (strToBytes s))).foldr
      (fun b acc => byteToHex b ++ acc) []).length = 64
  rw [length_hexChars_foldr, stateBytes_length]

theorem hexDigit_mem (n : Nat) : hexDigit n ∈ hexDigitChars := by
  by_cases h : n < hexDigitChars.length
  · rw [hexDigit, List.getD_eq_getElem?_getD, List.getElem?_eq_getElem h]
    simp [List.getElem_mem]
  · rw [hexDigit, List.getD_eq_getElem?_getD, List.getElem?_eq_none (by omega)]
    decide

theorem mem_hexChars_foldr : ∀ (bs : List Nat) (c : Char),
    c ∈ bs.foldr (fun b acc => byteToHex b ++ acc) [] → c ∈ hexDigitChars
  | [], c, h => by simp at h
  | b :: rest, c, h => by
      simp only [List.foldr_cons, byteToHex, List.cons_append, List.nil_append,
        List.mem_cons] at h
      rcases h with h | h | h
      · rw [h]; exact hexDigit_mem _
      · rw [h]; exact hexDigit_mem _
      · exact mem_hexChars_foldr rest c h

theorem sha256hex_chars (s : String) (c : Char) (hc : c ∈ (sha256hex s).data) :
    c ∈ hexDigitChars := by
  exact mem_hexChars_foldr (stateBytes (sha256Words (strToBytes s))) c hc

theorem buildLoop_singleton (fuel : Nat) (w : String) :
    buildLoop fuel [w] = [[w]] := by
  cases fuel with
  | zero => rfl
  | succ k => simp [buildLoop]

/-- The root of a tree built over at least two nodes is itself a SHA-256
digest (a `sha256hex` image). -/
theorem buildLoop_root_is_hash : ∀ (fuel : Nat) (cur : List String),
    2 ≤ cur.length → cur.length ≤ fuel →
    ∃ x, rootOfLevels (buildLoop fuel cur) = sha256hex x
  | 0, cur, h2, hf => by omega
  | fuel + 1, cur, h2, hf => by
      have hlen : ¬cur.length ≤ 1 := by omega
      have hbl : buildLoop (fuel + 1) cur = cur :: buildLoop fuel (nextLevel cur) := by
        simp [buildLoop, hlen]
      rw [hbl, rootOfLevels_cons _ _ (buildLoop_ne_nil _ _)]
      have hnl := nextLevel_length cur
      by_cases hn2 : 2 ≤ (nextLevel cur).length
      · exact buildLoop_root_is_hash fuel (nextLevel cur) hn2 (by omega)
      · obtain ⟨x, y, rest, rfl⟩ : ∃ x y rest, cur = x :: y :: rest := by
          cases cur with
          | nil => simp at h2
          | cons a t =>
              cases t with
              | nil => simp at h2
              | cons b u => exact ⟨a, b, u, rfl⟩
        have hnr : nextLevel rest = [] := by
          have hl1 : (nextLevel (x :: y :: rest)).length = 1 := by omega
          have hplus : (nextLevel (x :: y :: rest)).length = (nextLevel rest).length + 1 := by
            simp [nextLevel]
          rw [← List.length_eq_zero]
          omega
        have hnx : nextLevel (x :: y :: rest) = [hashPair x y] := by
          simp [nextLevel, hnr]
        rw [hnx, buildLoop_singleton]
        exact ⟨x ++ y, rfl⟩

/-- C7: for any six input fields, `create_fraud_proof` returns a 64-character
lowercase-hex root together with a proof of exactly 3 hash elements, and is
deterministic (identical arguments give identical output). -/
theorem createFraudProof_shape (campaignId : Nat) (publisherId : String)
    (impressions clicks fraudScore4 timestamp : Nat) :
    ∃ root prf,
      createFraudProof campaignId publisherId impressions clicks fraudScore4 timestamp
        = .ok (root, prf) ∧
      root.length = 64 ∧ (∀ c ∈ root.data, c ∈ hexDigitChars) ∧ prf.length = 3 ∧
      createFraudProof campaignId publisherId impressions clicks fraudScore4 timestamp
        = createFraudProof campaignId publisherId impressions clicks fraudScore4 timestamp := by
  refine ⟨_, _, rfl, ?_, ?_, rfl, rfl⟩
  · obtain ⟨x, hx⟩ := buildLoop_root_is_hash 6
      (["campaign:" ++ toString campaignId,
        "publisher:" ++ publisherId,
        "impressions:" ++ toString impressions,
        "clicks:" ++ toString clicks,
        "fraud_score:" ++ formatScore4 fraudScore4,
        "timestamp:" ++ toString timestamp].map sha256hex)
      (by simp) (by simp)
    have hx' : rootOfLevels (buildTree
        (["campaign:" ++ toString campaignId,
          "publisher:" ++ publisherId,
          "impressions:" ++ toString impressions,
          "clicks:" ++ toString clicks,
          "fraud_score:" ++ formatScore4 fraudScore4,
          "timestamp:" ++ toString timestamp].map sha256hex)) = sha256hex x := hx
    show (rootOfLevels (buildTree
        (["campaign:" ++ toString campaignId,
          "publisher:" ++ publisherId,
          "impressions:" ++ toString impressions,
          "clicks:" ++ toString clicks,
          "fraud_score:" ++ formatScore4 fraudScore4,
          "timestamp:" ++ toString timestamp].map sha256hex))).length = 64
    rw [hx']
    exact sha256hex_length x
  · obtain ⟨x, hx⟩ := buildLoop_root_is_hash 6
      (["campaign:" ++ toString campaignId,
        "publisher:" ++ publisherId,
        "impressions:" ++ toString impressions,
        "clicks:" ++ toString clicks,
        "fraud_score:" ++ formatScore4 fraudScore4,
        "timestamp:" ++ toString timestamp].map sha256hex)
      (by simp) (by simp)
    have hx' : rootOfLevels (buildTree
        (["campaign:" ++ toString campaignId,
          "publisher:" ++ publisherId,
          "impressions:" ++ toString impressions,
          "clicks:" ++ toString clicks,
          "fraud_score:" ++ formatScore4 fraudScore4,
          "timestamp:" ++ toString timestamp].map sha256hex)) = sha256hex x := hx
    intro c hc
    have hc' : c ∈ (rootOfLevels (buildTree
        (["campaign:" ++ toString campaignId,
          "publisher:" ++ publisherId,
          "impressions:" ++ toString impressions,
          "clicks:" ++ toString clicks,
          "fraud_score:" ++ formatScore4 fraudScore4,
          "timestamp:" ++ toString timestamp].map sha256hex))).data := hc
    rw [hx'] at hc'
    exact sha256hex_chars x c hc'

/-- Nibble value of a lowercase hexadecimal character. -/
def hexNibble (c : Char) : Nat :=
  if c = '0' then 0 else if c = '1' then 1 else if c = '2' then 2 else if c = '3' then 3
  else if c = '4' then 4 else if c = '5' then 5 else if c = '6' then 6 else if c = '7' then 7
  else if c = '8' then 8 else if c = '9' then 9 else if c = 'a' then 10 else if c = 'b' then 11
  else if c = 'c' then 12 else if c = 'd' then 13 else if c = 'e' then 14 else 15

/-- Decode pairs of hex characters into bytes. -/
def hexDecodeChars : List Char → List Nat
  | c1 :: c2 :: rest => (16 * hexNibble c1 + hexNibble c2) :: hexDecodeChars rest
  | _ => []

/-- Decode a hex digest string into its raw bytes. -/
def hexDecode (s : String) : List Nat := hexDecodeChars s.data

/-- Modelled from the spec: the binary-concatenation pairing that §4.1 rules
out — SHA-256 over the decoded raw bytes of the two digests instead of over
their textual (hex string) concatenation.  Present only as the contrast for
the claim that `_hash_pair` operates on the textual representation. -/
def pairHashBinary (left right : String) : String :=
  sha256BytesHex (hexDecode left ++ hexDecode right)

set_option maxRecDepth 1000000 in
/-- C5: the internal-node hash is SHA-256 of the concatenation of the two
lowercase hex digest strings (their textual representation); it differs from
SHA-256 over the decoded binary form, witnessed at the all-zero digest. -/
theorem hashPair_is_textual :
    (∀ left right : String, hashPair left right = sha256hex (left ++ right)) ∧
    hashPair
        "0000000000000000000000000000000000000000000000000000000000000000"
        "0000000000000000000000000000000000000000000000000000000000000000"
      ≠ pairHashBinary
        "0000000000000000000000000000000000000000000000000000000000000000"
        "0000000000000000000000000000000000000000000000000000000000000000" := by
  refine ⟨fun l r => rfl, ?_⟩
  decide

set_option maxRecDepth 1000000 in
/-- C2 (code bug, evaluated): on the spec's own end-to-end example,
verifying the freshly created fraud proof returns false, not true —
`create_fraud_proof` emits the sides `[right, right, left]` for leaf 4 of
the 6-leaf tree, while `verify_fraud_proof` reconstructs the alternating
sides `[left, right, left]`. -/
theorem fraud_roundtrip_returns_false :
    Except.bind (createFraudProof 42 "SP1ABC" 1000 50 8734 1700000000)
      (fun rp => verifyFraudProof "fraud_score:0.8734" rp.2 rp.1) = .ok false := by
  rfl

end AdStack
